import Mathlib

/-!
Verification of the HyperMonetIconTheme build script
(`HyperMonetIconThemeScript.py`).

The script is a batch pipeline: parse an appfilter mapping table,
deduplicate it into one row per Android package, rasterize and recolor
one SVG per package into a pair of PNG layers, and pack the result into
nested zip archives.

Modelling conventions:
* Python strings are embedded as `List Char` (named `PyStr`); all string
  primitives used by the script (prefix test, substring containment,
  lexicographic comparison, upper-casing, splitting on a character) are
  defined structurally so that concrete runs reduce inside the kernel.
* XML items are records carrying the three attributes the script reads.
* PIL images are records of width, height and a row-major pixel list of
  RGBA quadruples of naturals.
* The filesystem effect of a stage is modelled as the list of files it
  produces; paths are lists of components.
* External libraries (cairosvg's `svg2png`, PIL's file decoding) are
  inputs of the model: a rasterizer is a function from drawable name and
  requested pixel size to `Option Img`, `none` modelling the exception
  caught at `process_svg`'s `try` block.
-/

/-- Python strings, embedded as lists of characters. -/
abbrev PyStr := List Char

/-- Opening brace character (written numerically). -/
def braceOpen : Char := Char.ofNat 123

/-- Closing brace character (written numerically). -/
def braceClose : Char := Char.ofNat 125

/-- Lexicographic comparison of strings by code point, as Python `<=`
on `str`. -/
def leStr : PyStr → PyStr → Bool
  | [], _ => true
  | _ :: _, [] => false
  | a :: as, b :: bs =>
    if a.toNat < b.toNat then true
    else if b.toNat < a.toNat then false
    else leStr as bs

/-- Python whitespace characters recognised by `str.strip`. -/
def isPySpace (c : Char) : Bool :=
  c.toNat = 32 ∨ c.toNat = 9 ∨ c.toNat = 10 ∨ c.toNat = 13 ∨ c.toNat = 11 ∨ c.toNat = 12

/-- Truthiness of `line.strip()`: the line has a non-whitespace character. -/
def hasNonSpace (s : PyStr) : Bool :=
  s.any (fun c => ¬ isPySpace c)

/-- Python `str.startswith`. -/
def startsWithStr (s pat : PyStr) : Bool :=
  pat.isPrefixOf s

/-- Python `str.endswith`. -/
def endsWithStr (s pat : PyStr) : Bool :=
  pat.reverse.isPrefixOf s.reverse

/-- Python substring containment (`pat in s`). -/
def containsSub (pat : PyStr) : PyStr → Bool
  | [] => pat.isEmpty
  | c :: t => pat.isPrefixOf (c :: t) || containsSub pat t

/-- ASCII upper-casing of one character, as Python `str.upper` acts on
the ASCII color strings used by the script. -/
def pyUpperChar (c : Char) : Char :=
  if 97 ≤ c.toNat ∧ c.toNat ≤ 122 then Char.ofNat (c.toNat - 32) else c

/-- Python `str.upper` (ASCII fragment). -/
def pyUpper (s : PyStr) : PyStr :=
  s.map pyUpperChar

/-- An `item` element of the source appfilter table, with the three
attributes read at lines 72-74 (`item.get` defaults missing attributes
to the empty string). -/
structure Item where
  component : PyStr
  name : PyStr
  drawable : PyStr
deriving DecidableEq

/-- A row of the normalized table: package, name, drawable. -/
abbrev Row := PyStr × PyStr × PyStr

/-- Scan for the closing brace demanded by the `.*?\x7d` tail of the
regex at line 54; `.` does not match a newline, so the scan fails when a
newline precedes every closing brace. -/
def scanCloseBrace : PyStr → Bool
  | [] => false
  | c :: t => if c = braceClose then true else if c = '\n' then false else scanCloseBrace t

/-- Literal prefix `ComponentInfo` followed by an opening brace, as in
the regex at line 54. -/
def ciOpen : PyStr := "ComponentInfo".data ++ [braceOpen]

/-- MappingProcessor.parse_component_info (lines 52-57): match the
anchored regex `ComponentInfo` + brace + `([^/]+)/.*?` + brace against
the component string and return the first group, or the empty string
when there is no match. -/
def parse_component_info (component : PyStr) : PyStr :=
  if ciOpen.isPrefixOf component then
    let rest := component.drop ciOpen.length
    let pkg := rest.takeWhile (fun c => c ≠ '/')
    let rest2 := rest.dropWhile (fun c => c ≠ '/')
    if rest2 = [] then []
    else if pkg ≠ [] ∧ scanCloseBrace (rest2.drop 1) then pkg else []
  else []

/-- One iteration of the dedup loop body (lines 71-79): an item
contributes a `(package, name, drawable)` row unless its component or
drawable attribute is empty or the component does not match the regex. -/
def extractRow (it : Item) : Option Row :=
  if it.component ≠ [] ∧ it.drawable ≠ [] then
    let p := parse_component_info it.component
    if p ≠ [] then some (p, it.name, it.drawable) else none
  else none

/-- Assignment `unique_packages[package] = (name, drawable)` on an
insertion-ordered dictionary, embedded as an association list: replace
in place when the key exists, append otherwise. -/
def upsert (l : List Row) (p : PyStr) (v : PyStr × PyStr) : List Row :=
  match l with
  | [] => [(p, v.1, v.2)]
  | r :: t => if r.1 = p then (p, v.1, v.2) :: t else r :: upsert t p v

/-- The dedup loop of `convert_icon_mapper` (lines 71-79), with explicit
accumulator. -/
def dedupAux (acc : List Row) : List Item → List Row
  | [] => acc
  | it :: t =>
    dedupAux (match extractRow it with
      | some (p, n, d) => upsert acc p (n, d)
      | none => acc) t

/-- Contents of `unique_packages` after the dedup loop. -/
def dedupItems (items : List Item) : List Row :=
  dedupAux [] items

/-- Dictionary lookup in the association-list embedding. -/
def lookupPkg (l : List Row) (p : PyStr) : Option (PyStr × PyStr) :=
  match l with
  | [] => none
  | r :: t => if r.1 = p then some (r.2.1, r.2.2) else lookupPkg t p

/-- The `(name, drawable)` of the last item of the table (in iteration
order) whose extracted package is `p`, with explicit accumulator. -/
def lastAux (cur : Option (PyStr × PyStr)) (p : PyStr) : List Item → Option (PyStr × PyStr)
  | [] => cur
  | it :: t =>
    lastAux (match extractRow it with
      | some (q, n, d) => if q = p then some (n, d) else cur
      | none => cur) p t

/-- The `(name, drawable)` of the last item extracting to package `p`. -/
def lastExtract (items : List Item) (p : PyStr) : Option (PyStr × PyStr) :=
  lastAux none p items

/-- Insert one row into a list sorted by package key. -/
def insertRow (r : Row) : List Row → List Row
  | [] => [r]
  | s :: t => if leStr r.1 s.1 then r :: s :: t else s :: insertRow r t

/-- Insertion sort by package key; `sorted(unique_packages.items())` at
line 85 compares pairs, but the dictionary keys are distinct so the
result coincides with any stable sort by key. -/
def sortRows : List Row → List Row
  | [] => []
  | r :: t => insertRow r (sortRows t)

/-- The ordered rows of the normalized table produced by
`convert_icon_mapper` from a parsed source table (lines 65-89). -/
def convertRows (items : List Item) : List Row :=
  sortRows (dedupItems items)

/-- Ordering of rows used to state sortedness: by package key. -/
def rowLe (a b : Row) : Prop := leStr a.1 b.1 = true

/-- Package extraction as the SPEC's wording of claim C9 describes it:
the substring between the literal `ComponentInfo` + brace prefix and the
first following slash, empty when the prefix or the slash is absent.
Declared only to compare the spec's wording against the behaviour of
`parse_component_info`. -/
def specPkgOfComponent (component : PyStr) : PyStr :=
  if ciOpen.isPrefixOf component then
    let rest := component.drop ciOpen.length
    if rest.dropWhile (fun c => c ≠ '/') = [] then []
    else rest.takeWhile (fun c => c ≠ '/')
  else []

/-! Serialization of the normalized table (`convert_icon_mapper`,
lines 93-109): the element tree is rendered to a flat string, split on
the tag-closing character, and re-assembled by the hand-rolled
pretty-printing loop. -/

/-- Double-quote character (written numerically). -/
def quoteChar : Char := Char.ofNat 34

/-- Attribute escaping performed by the element-tree serializer
(`xml.etree.ElementTree`): ampersand, angle brackets, the double quote
and tab, newline, carriage return become character references. -/
def escChar (c : Char) : PyStr :=
  if c = '&' then "&amp;".data
  else if c = '<' then "&lt;".data
  else if c = '>' then "&gt;".data
  else if c = quoteChar then "&quot;".data
  else if c = '\r' then "&#13;".data
  else if c = '\n' then "&#10;".data
  else if c = '\t' then "&#09;".data
  else [c]

/-- Escape every character of an attribute value. -/
def escAttrib (s : PyStr) : PyStr :=
  s.foldr (fun c acc => escChar c ++ acc) []

/-- The serialized form of one `item` element, without its final
tag-closing character: attributes in assignment order (name, package,
drawable, as set at lines 87-89), self-closing. -/
def itemBody (r : Row) : PyStr :=
  "<item name=".data ++ quoteChar :: escAttrib r.2.1 ++ quoteChar ::
  " package=".data ++ quoteChar :: escAttrib r.1 ++ quoteChar ::
  " drawable=".data ++ quoteChar :: escAttrib r.2.2 ++ quoteChar :: " /".data

/-- ET.tostring of the new `resources` element (line 96): self-closing
when there are no rows, otherwise open tag, one self-closing `item` per
row, close tag. -/
def roughString (rows : List Row) : PyStr :=
  match rows with
  | [] => "<resources />".data
  | _ => "<resources>".data ++
      rows.foldr (fun r acc => itemBody r ++ '>' :: acc) "</resources>".data

/-- Python `str.split` on the tag-closing character (line 99). -/
def splitGt : PyStr → List PyStr
  | [] => [[]]
  | c :: t =>
    if c = '>' then [] :: splitGt t
    else
      match splitGt t with
      | [] => [[c]]
      | h :: r => (c :: h) :: r

/-- Indentation string assigned at line 104. -/
def fourSpaces : PyStr := "    ".data

/-- Pattern of an opening root tag (line 103). -/
def resOpenPat : PyStr := "<resources".data

/-- Pattern of a closing tag (line 101). -/
def closePat : PyStr := "</".data

/-- Pattern of a self-closing tag end (line 103). -/
def slashGtPat : PyStr := "/>".data

/-- The pretty-printing loop of lines 97-107: every non-blank fragment
is re-suffixed with the tag-closing character and a newline; a fragment
that does not open a closing tag is prefixed with the current
indentation, and the indentation becomes four spaces after any fragment
that is neither the root open tag nor (vacuously, since fragments carry
no tag-closing character) a self-closing end; a closing-tag fragment
resets the indentation and is emitted unindented. -/
def formatLoop : List PyStr → PyStr → PyStr
  | [], _ => []
  | line :: rest, indent =>
    if hasNonSpace line then
      if ¬ startsWithStr line closePat then
        indent ++ line ++ '>' :: '\n' ::
          formatLoop rest
            (if ¬ startsWithStr line resOpenPat ∧ ¬ endsWithStr line slashGtPat then
              fourSpaces
            else indent)
      else line ++ '>' :: '\n' :: formatLoop rest []
    else formatLoop rest indent

/-- The declaration line written at line 95. -/
def xmlDecl : PyStr :=
  "<?xml version=".data ++ quoteChar :: "1.0".data ++ quoteChar ::
  " encoding=".data ++ quoteChar :: "utf-8".data ++ quoteChar :: "?>".data ++ ['\n']

/-- The full text written to the normalized mapping file by
`convert_icon_mapper` (lines 94-109). -/
def convert_output (items : List Item) : PyStr :=
  xmlDecl ++ formatLoop (splitGt (roughString (convertRows items))) []

/-! IconProcessor: images, colors and the rasterize-recolor pipeline. -/

/-- An RGBA pixel. -/
abbrev RGBA := ℕ × ℕ × ℕ × ℕ

/-- A PIL image: width, height and a row-major pixel list. -/
structure Img where
  w : ℕ
  h : ℕ
  data : List RGBA
deriving DecidableEq

/-- Value of one hexadecimal digit. -/
def hexVal (c : Char) : Option ℕ :=
  if 48 ≤ c.toNat ∧ c.toNat ≤ 57 then some (c.toNat - 48)
  else if 97 ≤ c.toNat ∧ c.toNat ≤ 102 then some (c.toNat - 87)
  else if 65 ≤ c.toNat ∧ c.toNat ≤ 70 then some (c.toNat - 55)
  else none

/-- PIL `ImageColor.getrgb` restricted to the 6-digit hex form used by
the script's color constants; `none` models the exception raised on any
other input. -/
def getrgb (s : PyStr) : Option (ℕ × ℕ × ℕ) :=
  match s with
  | c0 :: [a, b, c, d, e, f] =>
    if c0 = '#' then
      match hexVal a, hexVal b, hexVal c, hexVal d, hexVal e, hexVal f with
      | some va, some vb, some vc, some vd, some ve, some vf =>
        some (16 * va + vb, 16 * vc + vd, 16 * ve + vf)
      | _, _, _, _, _, _ => none
    else none
  | _ => none

/-- Foreground color constant (line 17). -/
def FG_COLOR : PyStr := "#d1e2fc".data

/-- Background color constant (line 18). -/
def BG_COLOR : PyStr := "#1c232b".data

/-- Icon canvas size constant (line 24). -/
def ICON_SIZE : ℕ := 432

/-- Numerator of the icon scale constant 0.4 (line 25), modelled as the
rational two fifths. -/
def SCALE_NUM : ℕ := 2

/-- Denominator of the icon scale constant 0.4 (line 25). -/
def SCALE_DEN : ℕ := 5

/-- Pure black in upper case, compared against at line 155. -/
def blackStr : PyStr := "#000000".data

/-- Line 128: `int(icon_size * icon_scale)` with the scale passed as a
(nonnegative) rational; for a nonnegative product, Python's `int`
truncation is the floor, which on naturals is `size * num / den`. -/
def icon_actual_size (icon_size s_num s_den : ℕ) : ℕ :=
  icon_size * s_num / s_den

/-- Lines 148-149: centering offset `(icon_size - actual) // 2` (the
script only ever uses a scale below one, so the difference is
nonnegative). -/
def paste_position (icon_size actual : ℕ) : ℕ :=
  (icon_size - actual) / 2

/-- Fully transparent pixel. -/
def transPixel : RGBA := (0, 0, 0, 0)

/-- Lines 145-152: a transparent square canvas with the glyph pasted at
offset `(off, off)`. The library's per-pixel mask blending against the
fully transparent canvas is abstracted to taking the glyph's pixel
inside the pasted region; the theorems rely only on the placement and
the dimensions of the result. -/
def pasteCentered (size : ℕ) (icon : Img) (off : ℕ) : Img :=
  ⟨size, size, (List.range (size * size)).map (fun i =>
    let x := i % size
    let y := i / size
    if off ≤ x ∧ x < off + icon.w ∧ off ≤ y ∧ y < off + icon.h then
      icon.data.getD ((y - off) * icon.w + (x - off)) transPixel
    else transPixel)⟩

/-- The recoloring loop of lines 156-167: every pixel whose alpha is
nonzero becomes the foreground color with its original alpha; fully
transparent pixels are kept. -/
def recolor (rgb : ℕ × ℕ × ℕ) (data : List RGBA) : List RGBA :=
  data.map (fun p => if p.2.2.2 ≠ 0 then (rgb.1, rgb.2.1, rgb.2.2, p.2.2.2) else p)

/-- IconProcessor.process_svg (lines 120-169). The external rasterizer
(svg2png + Image.open, lines 131-142) is an input: `none` models the
exception caught at line 137, upon which the function returns `None`.
The final branch models lines 154-167: recoloring is skipped when the
upper-cased foreground color is pure black; an unparseable foreground
color raises in Python (aborting the run), modelled as `none`. -/
def process_svg (rasterized : Option Img) (fg_color : PyStr)
    (icon_size s_num s_den : ℕ) : Option Img :=
  match rasterized with
  | none => none
  | some icon =>
    let pasted := pasteCentered icon_size icon
      (paste_position icon_size (icon_actual_size icon_size s_num s_den))
    if pyUpper fg_color ≠ blackStr then
      match getrgb fg_color with
      | some rgb => some ⟨pasted.w, pasted.h, recolor rgb pasted.data⟩
      | none => none
    else some pasted

/-- IconProcessor.create_background (lines 116-117): an opaque square
canvas of the given color. -/
def create_background (icon_size : ℕ) (rgb : ℕ × ℕ × ℕ) : Img :=
  ⟨icon_size, icon_size, List.replicate (icon_size * icon_size) (rgb.1, rgb.2.1, rgb.2.2, 255)⟩

/-- Filename of the background layer (line 223). -/
def png0 : PyStr := "0.png".data

/-- Filename of the foreground layer (line 228). -/
def png1 : PyStr := "1.png".data

/-- IconProcessor.generate_icons (lines 182-234), as the tree of files
it writes below the output directory: one directory per mapping entry
whose SVG asset exists, holding the shared background as `0.png` and,
when `process_svg` returns an image, that image as `1.png`. `svgEx`
models the `svg_path.exists()` check of line 214 on the asset
directory; `raster` models the external rasterizer (drawable name and
requested pixel size to image). An unparseable background color raises
inside `create_background` before the loop, modelled by `none`. -/
def generate_icons (mapper : List (PyStr × PyStr)) (svgEx : PyStr → Bool)
    (raster : PyStr → ℕ → Option Img) (fg_color bg_color : PyStr)
    (icon_size s_num s_den : ℕ) : Option (List (PyStr × List (PyStr × Img))) :=
  match getrgb bg_color with
  | none => none
  | some bgRgb =>
    let background := create_background icon_size bgRgb
    some (mapper.filterMap (fun pd =>
      if svgEx pd.2 then
        some (pd.1, (png0, background) ::
          (match process_svg (raster pd.2 (icon_actual_size icon_size s_num s_den))
              fg_color icon_size s_num s_den with
            | some icon => [(png1, icon)]
            | none => []))
      else none))

/-! ThemePacker: archive packing. -/

/-- File contents, as bytes. -/
abbrev Bytes := List ℕ

/-- A path relative to a directory root, as a list of components. -/
abbrev RelPath := List PyStr

/-- Name of the renamed icons archive (line 275). -/
def iconsName : PyStr := "icons".data

/-- The `os.walk` root string of a directory: the base path joined with
the directory components by slashes, as `os.path.join` on POSIX. -/
def joinPath (base : PyStr) (dirs : RelPath) : PyStr :=
  dirs.foldl (fun a c => a ++ '/' :: c) base

/-- The `os.path.relpath` arcname of a file: its components joined by
slashes. -/
def arcjoin : RelPath → PyStr
  | [] => []
  | [c] => c
  | c :: t => c ++ '/' :: arcjoin t

/-- Overwriting copy of one file into a directory tree (`shutil.copy`):
replace the file at the path when present, create it otherwise. -/
def upsertFile (fs : List (RelPath × Bytes)) (p : RelPath) (b : Bytes) :
    List (RelPath × Bytes) :=
  match fs with
  | [] => [(p, b)]
  | f :: t => if f.1 = p then (p, b) :: t else f :: upsertFile t p b

/-- The effect on template B of the tail of ThemePacker.pack_icons_zip
(lines 272-278): the intermediate archive `icons.zip` is renamed to
`icons` and copied byte-for-byte into template B's root. `iconsBytes`
stands for the bytes of the intermediate archive produced at lines
265-270. -/
def copy_icons_into_template (templateB : List (RelPath × Bytes)) (iconsBytes : Bytes) :
    List (RelPath × Bytes) :=
  upsertFile templateB [iconsName] iconsBytes

/-- ThemePacker.pack_magisk_module (lines 292-300), as the entry list of
the final archive: `os.walk` visits every directory of template B, and
the `continue` at line 295 drops the files of every directory whose
path string contains `icons` (a subdirectory of such a directory
contains `icons` in its own path, so its files are dropped too); every
kept file is written under its path relative to the template root.
Walk order is abstracted as list order; entry names never decide a
claim through their order. -/
def pack_magisk_module (basePath : PyStr) (fs : List (RelPath × Bytes)) :
    List (PyStr × Bytes) :=
  fs.filterMap (fun f =>
    if containsSub iconsName (joinPath basePath f.1.dropLast) then none
    else some (arcjoin f.1, f.2))


/-- Python `str.split` on the newline character; used to state claims
about the line layout of the written file. -/
def splitNl : PyStr → List PyStr
  | [] => [[]]
  | c :: t =>
    if c = '\n' then [] :: splitNl t
    else
      match splitNl t with
      | [] => [[c]]
      | h :: r => (c :: h) :: r

/-- Two spaces, the indentation claimed by the spec. -/
def twoSpaces : PyStr := "  ".data

/-- Pattern of an item row. -/
def itemPat : PyStr := "<item".data

/-- A line of the written file is an item row when its content after any
leading whitespace opens an `item` tag. -/
def isItemRow (line : PyStr) : Bool :=
  startsWithStr (line.dropWhile isPySpace) itemPat

/-- Claim C6's property of an output text, as stated: every item row is
indented by exactly two spaces. -/
def twoSpaceIndented (o : PyStr) : Prop :=
  ∀ line ∈ splitNl o, isItemRow line = true → line.takeWhile isPySpace = twoSpaces

/-! Lemmas about the dictionary embedding and the sort. -/

theorem lookupPkg_upsert (l : List Row) (p : PyStr) (v : PyStr × PyStr) (q : PyStr) :
    lookupPkg (upsert l p v) q = if q = p then some v else lookupPkg l q := by
  induction l with
  | nil =>
    simp only [upsert, lookupPkg]
    by_cases h : q = p
    · subst h; simp
    · rw [if_neg (Ne.symm h), if_neg h]
  | cons r t ih =>
    simp only [upsert]
    by_cases hr : r.1 = p
    · by_cases h : q = p
      · subst h
        rw [if_pos hr]
        simp [lookupPkg]
      · rw [if_pos hr]
        simp only [lookupPkg, if_neg (Ne.symm h), if_neg h]
        rw [if_neg (fun he => h (he ▸ hr.symm).symm)]
    · rw [if_neg hr]
      by_cases h2 : r.1 = q
      · have hq : ¬ q = p := fun he => hr (h2.trans he)
        simp only [lookupPkg, if_pos h2, if_neg hq]
      · simp only [lookupPkg, if_neg h2, ih]

theorem mem_keys_upsert (l : List Row) (p : PyStr) (v : PyStr × PyStr) (q : PyStr) :
    q ∈ (upsert l p v).map Prod.fst ↔ q ∈ l.map Prod.fst ∨ q = p := by
  induction l with
  | nil => simp [upsert]
  | cons r t ih =>
    simp only [upsert]
    by_cases hr : r.1 = p
    · rw [if_pos hr]
      simp only [List.map_cons, List.mem_cons, hr]
      tauto
    · rw [if_neg hr]
      simp only [List.map_cons, List.mem_cons, ih]
      tauto

theorem nodup_keys_upsert (l : List Row) (p : PyStr) (v : PyStr × PyStr)
    (h : (l.map Prod.fst).Nodup) : ((upsert l p v).map Prod.fst).Nodup := by
  induction l with
  | nil => simp [upsert]
  | cons r t ih =>
    simp only [List.map_cons, List.nodup_cons] at h
    simp only [upsert]
    by_cases hr : r.1 = p
    · rw [if_pos hr]
      simp only [List.map_cons, List.nodup_cons]
      exact ⟨hr ▸ h.1, h.2⟩
    · rw [if_neg hr]
      simp only [List.map_cons, List.nodup_cons, mem_keys_upsert]
      refine ⟨?_, ih h.2⟩
      rintro (hm | hm)
      · exact h.1 hm
      · exact hr hm

theorem dedupAux_lookup (items : List Item) :
    ∀ acc p, lookupPkg (dedupAux acc items) p = lastAux (lookupPkg acc p) p items := by
  induction items with
  | nil => intro acc p; simp [dedupAux, lastAux]
  | cons it t ih =>
    intro acc p
    simp only [dedupAux, lastAux]
    rcases hx : extractRow it with _ | ⟨⟨q, n, d⟩⟩
    · exact ih acc p
    · rw [ih]
      congr 1
      show lookupPkg (upsert acc q (n, d)) p = if q = p then some (n, d) else lookupPkg acc p
      rw [lookupPkg_upsert]
      by_cases h : p = q
      · subst h; simp
      · rw [if_neg h, if_neg (Ne.symm h)]

theorem nodup_keys_dedupAux (items : List Item) :
    ∀ acc, (acc.map Prod.fst).Nodup → ((dedupAux acc items).map Prod.fst).Nodup := by
  induction items with
  | nil => intro acc h; simpa [dedupAux] using h
  | cons it t ih =>
    intro acc h
    simp only [dedupAux]
    rcases hx : extractRow it with _ | ⟨⟨q, n, d⟩⟩
    · exact ih acc h
    · exact ih _ (nodup_keys_upsert acc q (n, d) h)

theorem lookupPkg_eq_some_of_mem (l : List Row) (p : PyStr) (n d : PyStr)
    (hnd : (l.map Prod.fst).Nodup) (hm : (p, n, d) ∈ l) :
    lookupPkg l p = some (n, d) := by
  induction l with
  | nil => cases hm
  | cons r t ih =>
    simp only [List.map_cons, List.nodup_cons] at hnd
    rcases List.mem_cons.mp hm with h | h
    · subst h
      simp [lookupPkg]
    · have hr : ¬ r.1 = p := by
        intro he
        exact hnd.1 (he ▸ List.mem_map_of_mem Prod.fst h)
      simp only [lookupPkg, if_neg hr]
      exact ih hnd.2 h

theorem mem_of_lookupPkg (l : List Row) (p : PyStr) (v : PyStr × PyStr)
    (h : lookupPkg l p = some v) : (p, v.1, v.2) ∈ l := by
  induction l with
  | nil => simp [lookupPkg] at h
  | cons r t ih =>
    by_cases hr : r.1 = p
    · obtain ⟨r1, r2, r3⟩ := r
      simp only [lookupPkg, if_pos hr, Option.some_inj] at h
      simp only at hr
      subst hr
      rw [← h]
      exact List.mem_cons_self _ _
    · simp only [lookupPkg, if_neg hr] at h
      exact List.mem_cons_of_mem r (ih h)

theorem leStr_cons_iff (x y : Char) (xs ys : PyStr) :
    leStr (x :: xs) (y :: ys) = true ↔
      x.toNat < y.toNat ∨ (x.toNat = y.toNat ∧ leStr xs ys = true) := by
  simp only [leStr]
  split_ifs with h1 h2
  · simp [h1]
  · simp only [Bool.false_eq_true, false_iff]
    rintro (h | ⟨h, -⟩) <;> omega
  · have : x.toNat = y.toNat := by omega
    simp [this]

theorem leStr_total (a b : PyStr) : leStr a b = true ∨ leStr b a = true := by
  induction a generalizing b with
  | nil => left; simp [leStr]
  | cons x xs ih =>
    cases b with
    | nil => right; simp [leStr]
    | cons y ys =>
      rw [leStr_cons_iff, leStr_cons_iff]
      rcases Nat.lt_trichotomy x.toNat y.toNat with h | h | h
      · left; left; exact h
      · rcases ih ys with h2 | h2
        · left; right; exact ⟨h, h2⟩
        · right; right; exact ⟨h.symm, h2⟩
      · right; left; exact h

theorem leStr_trans (a b c : PyStr) (hab : leStr a b = true) (hbc : leStr b c = true) :
    leStr a c = true := by
  induction a generalizing b c with
  | nil => simp [leStr]
  | cons x xs ih =>
    cases b with
    | nil => simp [leStr] at hab
    | cons y ys =>
      cases c with
      | nil => simp [leStr] at hbc
      | cons z zs =>
        rw [leStr_cons_iff] at hab hbc ⊢
        rcases hab with h1 | ⟨h1, h1'⟩ <;> rcases hbc with h2 | ⟨h2, h2'⟩
        · left; omega
        · left; omega
        · left; omega
        · right; exact ⟨h1.trans h2, ih ys zs h1' h2'⟩

theorem perm_insertRow (r : Row) (l : List Row) : (insertRow r l).Perm (r :: l) := by
  induction l with
  | nil => simp [insertRow]
  | cons s t ih =>
    simp only [insertRow]
    by_cases h : leStr r.1 s.1
    · simp [h]
    · rw [if_neg h]
      exact (ih.cons s).trans (List.Perm.swap r s t)

theorem perm_sortRows (l : List Row) : (sortRows l).Perm l := by
  induction l with
  | nil => simp [sortRows]
  | cons r t ih =>
    simp only [sortRows]
    exact (perm_insertRow r (sortRows t)).trans (ih.cons r)

theorem pairwise_insertRow (r : Row) (l : List Row)
    (h : l.Pairwise rowLe) : (insertRow r l).Pairwise rowLe := by
  induction l with
  | nil => simp [insertRow, List.pairwise_cons]
  | cons s t ih =>
    rw [List.pairwise_cons] at h
    simp only [insertRow]
    by_cases hle : leStr r.1 s.1
    · rw [if_pos hle]
      refine List.Pairwise.cons ?_ (List.Pairwise.cons h.1 h.2)
      intro y hy
      rcases List.mem_cons.mp hy with hy | hy
      · subst hy; exact hle
      · exact leStr_trans _ _ _ hle (h.1 y hy)
    · rw [if_neg hle]
      refine List.Pairwise.cons ?_ (ih h.2)
      intro y hy
      rcases List.mem_cons.mp ((perm_insertRow r t).mem_iff.mp hy) with hy | hy
      · rcases leStr_total r.1 s.1 with h1 | h1
        · exact absurd h1 hle
        · rw [hy]; exact h1
      · exact h.1 y hy

theorem pairwise_sortRows (l : List Row) : (sortRows l).Pairwise rowLe := by
  induction l with
  | nil => simp [sortRows]
  | cons r t ih => exact pairwise_insertRow r (sortRows t) ih

/-- Claim C1: for every source table that parses, the normalized table
holds exactly one row per distinct extracted package (its key list has
no duplicate and a package has a row exactly when some item extracts to
it), rows are sorted by package identifier, and the row kept for a
package carries the (name, drawable) of the last item in source
iteration order that extracted to that package. -/
theorem convert_rows_dedup_sorted_last_wins (items : List Item) :
    ((convertRows items).map Prod.fst).Nodup ∧
    (convertRows items).Pairwise rowLe ∧
    (∀ p n d, (p, n, d) ∈ convertRows items ↔ lastExtract items p = some (n, d)) := by
  have hnd : ((dedupItems items).map Prod.fst).Nodup :=
    nodup_keys_dedupAux items [] (by simp)
  have hperm : (sortRows (dedupItems items)).Perm (dedupItems items) := perm_sortRows _
  refine ⟨?_, pairwise_sortRows _, ?_⟩
  · exact ((hperm.map Prod.fst).nodup_iff).mpr hnd
  · intro p n d
    constructor
    · intro hm
      have hm' : (p, n, d) ∈ dedupItems items := hperm.mem_iff.mp hm
      have hl := lookupPkg_eq_some_of_mem _ p n d hnd hm'
      rw [dedupItems, dedupAux_lookup] at hl
      simpa [lastExtract, lookupPkg] using hl
    · intro hl
      have hl' : lookupPkg (dedupItems items) p = some (n, d) := by
        rw [dedupItems, dedupAux_lookup]
        simpa [lastExtract, lookupPkg] using hl
      exact hperm.mem_iff.mpr (mem_of_lookupPkg _ p (n, d) hl')

/-! Lemmas about the serializer and the pretty-printing loop. -/

theorem gt_not_mem_escChar (c : Char) : '>' ∉ escChar c := by
  unfold escChar
  split_ifs with h1 h2 h3 h4 h5 h6 h7
  · decide
  · decide
  · decide
  · decide
  · decide
  · decide
  · decide
  · simp only [List.mem_singleton]
    exact fun he => h3 he.symm

theorem gt_not_mem_escAttrib (s : PyStr) : '>' ∉ escAttrib s := by
  induction s with
  | nil => simp [escAttrib]
  | cons c t ih =>
    simp only [escAttrib, List.foldr_cons, List.mem_append]
    rintro (h | h)
    · exact gt_not_mem_escChar c h
    · exact ih h

theorem gt_not_mem_itemBody (r : Row) : '>' ∉ itemBody r := by
  simp [itemBody, gt_not_mem_escAttrib, quoteChar]

theorem splitGt_append (xs ys : PyStr) (h : '>' ∉ xs) :
    splitGt (xs ++ '>' :: ys) = xs :: splitGt ys := by
  induction xs with
  | nil => simp [splitGt]
  | cons c t ih =>
    have hc : ¬ c = '>' := fun he => h (he ▸ List.mem_cons_self c t)
    have ht : '>' ∉ t := fun hm => h (List.mem_cons_of_mem c hm)
    simp only [List.cons_append, splitGt, if_neg hc]
    show (match splitGt (t ++ '>' :: ys) with
      | [] => [[c]]
      | h :: r => (c :: h) :: r) = (c :: t) :: splitGt ys
    rw [ih ht]

theorem splitGt_roughString (r : Row) (rest : List Row) :
    splitGt (roughString (r :: rest)) =
      "<resources".data :: (r :: rest).map itemBody ++ ["</resources".data, []] := by
  have hbody : ∀ rows : List Row,
      splitGt (rows.foldr (fun s acc => itemBody s ++ '>' :: acc) "</resources>".data) =
        rows.map itemBody ++ ["</resources".data, []] := by
    intro rows
    induction rows with
    | nil => decide
    | cons s t ih =>
      simp only [List.foldr_cons, List.map_cons, List.cons_append]
      rw [splitGt_append _ _ (gt_not_mem_itemBody s), ih]
  show splitGt ("<resources".data ++ '>' ::
      ((r :: rest).foldr (fun s acc => itemBody s ++ '>' :: acc) "</resources>".data)) = _
  rw [splitGt_append _ _ (by decide), hbody]
  rfl

theorem formatLoop_cons_open (line : PyStr) (rest : List PyStr) (indent : PyStr)
    (h1 : hasNonSpace line = true) (h2 : startsWithStr line closePat = false) :
    formatLoop (line :: rest) indent =
      indent ++ line ++ '>' :: '\n' ::
        formatLoop rest
          (if ¬ startsWithStr line resOpenPat ∧ ¬ endsWithStr line slashGtPat then
            fourSpaces
          else indent) := by
  rw [formatLoop]
  simp [h1, h2]

theorem itemBody_hasNonSpace (r : Row) : hasNonSpace (itemBody r) = true := by
  show hasNonSpace ('<' :: _) = true
  simp [hasNonSpace, isPySpace]

theorem itemBody_not_close (r : Row) : startsWithStr (itemBody r) closePat = false := by
  show startsWithStr ('<' :: 'i' :: _) closePat = false
  simp [startsWithStr, closePat, List.isPrefixOf]

theorem itemBody_not_resOpen (r : Row) : startsWithStr (itemBody r) resOpenPat = false := by
  show startsWithStr ('<' :: 'i' :: _) resOpenPat = false
  simp [startsWithStr, resOpenPat, List.isPrefixOf]

theorem endsWith_slashGt_false (l : PyStr) (h : '>' ∉ l) :
    endsWithStr l slashGtPat = false := by
  unfold endsWithStr slashGtPat
  cases hrev : l.reverse with
  | nil => decide
  | cons c t =>
    have hc : c ∈ l := by
      rw [← List.mem_reverse, hrev]
      exact List.mem_cons_self c t
    have hcne : ¬ ('>' = c) := fun he => h (by rw [he]; exact hc)
    have hbeq : ('>' == c) = false := beq_eq_false_iff_ne.mpr hcne
    show (('>' == c) && List.isPrefixOf ['/'] t) = false
    rw [hbeq, Bool.false_and]

theorem formatLoop_items (rows : List Row) :
    formatLoop (rows.map itemBody ++ ["</resources".data, []]) fourSpaces =
      rows.foldr (fun r acc => fourSpaces ++ itemBody r ++ '>' :: '\n' :: acc)
        ("</resources>".data ++ ['\n']) := by
  induction rows with
  | nil => decide
  | cons r t ih =>
    simp only [List.map_cons, List.cons_append, List.foldr_cons]
    rw [formatLoop_cons_open _ _ _ (itemBody_hasNonSpace r) (itemBody_not_close r)]
    rw [ite_self, ih]
    rfl

/-- Claim C6 (amended): the written file starts with the declaration
line; the root tags are unindented; the first item row is written with
no indentation, and every later item row is indented by exactly four
spaces. -/
theorem convert_output_layout (items : List Item) :
    convert_output items =
      xmlDecl ++
        (match convertRows items with
         | [] => "<resources />".data ++ ['\n']
         | r :: rest =>
             "<resources>".data ++ '\n' ::
               (itemBody r ++ '>' :: '\n' ::
                 rest.foldr (fun s acc => fourSpaces ++ itemBody s ++ '>' :: '\n' :: acc)
                   ("</resources>".data ++ ['\n']))) := by
  unfold convert_output
  cases h : convertRows items with
  | nil => rfl
  | cons r rest =>
    rw [splitGt_roughString, List.cons_append]
    rw [formatLoop_cons_open _ _ _ (by decide) (by decide)]
    rw [if_neg (by decide)]
    rw [List.map_cons, List.cons_append]
    rw [formatLoop_cons_open _ _ _ (itemBody_hasNonSpace r) (itemBody_not_close r)]
    rw [if_pos ⟨by simp [itemBody_not_resOpen r],
        by simp [endsWith_slashGt_false _ (gt_not_mem_itemBody r)]⟩]
    rw [formatLoop_items]
    rfl

set_option maxRecDepth 40000 in
/-- Claim C6, counterexample: on a table of two valid items the written
file is NOT two-space indented — the first item row carries no
indentation and the second is indented by four spaces. -/
theorem convert_output_not_two_space_indented :
    ¬ twoSpaceIndented (convert_output
      [⟨"ComponentInfo".data ++ braceOpen :: "a.app/X".data ++ [braceClose], "NA".data, "d1".data⟩,
       ⟨"ComponentInfo".data ++ braceOpen :: "b.app/Y".data ++ [braceClose], "NB".data, "d2".data⟩]) := by
  unfold twoSpaceIndented
  decide

/-- Claim C9 (amended): an item is skipped (contributes no row) exactly
when its component attribute is empty, its drawable attribute is empty,
or the component does not match the anchored component regex; and
whenever the regex does match, the extracted package coincides with the
spec's description — the substring between the `ComponentInfo` brace
prefix and the first slash. (The regex additionally demands a closing
brace after the slash, which the spec's substring description omits;
see the counterexample.) -/
theorem extract_skip_iff (it : Item) :
    (extractRow it = none ↔
      it.component = [] ∨ it.drawable = [] ∨ parse_component_info it.component = []) ∧
    (parse_component_info it.component ≠ [] →
      parse_component_info it.component = specPkgOfComponent it.component) := by
  constructor
  · unfold extractRow
    by_cases h1 : it.component = []
    · simp [h1]
    · by_cases h2 : it.drawable = []
      · simp [h1, h2]
      · by_cases h3 : parse_component_info it.component = []
        · simp [h1, h2, h3]
        · simp [h1, h2, h3]
  · intro hne
    simp only [parse_component_info, specPkgOfComponent] at hne ⊢
    split_ifs at hne ⊢ <;> first | rfl | (exact absurd rfl hne)

/-- Claim C9, witness for the amended claim: on a well-formed component
the parsed package is the substring between the brace prefix and the
first slash. -/
theorem extract_skip_iff_witness :
    parse_component_info ("ComponentInfo".data ++ braceOpen :: "com.app/Main".data ++ [braceClose]) =
        "com.app".data ∧
    parse_component_info ("ComponentInfo".data ++ braceOpen :: "com.app/Main".data ++ [braceClose]) =
      specPkgOfComponent ("ComponentInfo".data ++ braceOpen :: "com.app/Main".data ++ [braceClose]) :=
  ⟨by decide,
   (extract_skip_iff ⟨"ComponentInfo".data ++ braceOpen :: "com.app/Main".data ++ [braceClose],
      "n".data, "d".data⟩).2 (by decide)⟩

/-- Claim C9, counterexample: for the component that lacks the closing
brace the item IS skipped although its component and drawable are
nonempty and the substring between the brace prefix and the first slash
(`com.app`) is a nonempty package, so the skip condition claimed through
the spec's substring description does not hold. -/
theorem extract_skip_iff_counterexample :
    ¬ (extractRow ⟨"ComponentInfo".data ++ braceOpen :: "com.app/Main".data, "n".data, "d".data⟩ = none ↔
       ("ComponentInfo".data ++ braceOpen :: "com.app/Main".data = ([] : PyStr) ∨
        ("d".data : PyStr) = [] ∨
        specPkgOfComponent ("ComponentInfo".data ++ braceOpen :: "com.app/Main".data) = [])) := by
  decide

/-- Claim C5: for every successfully rasterized icon, `process_svg`
recolors every pixel of the pasted canvas whose alpha is nonzero to the
configured foreground color while keeping that pixel's alpha, leaves
fully transparent pixels unchanged, and performs no recoloring at all
when the upper-cased foreground color is pure black. -/
theorem process_svg_recolors (icon : Img) (fg : PyStr) (size n d : ℕ) (out : Img)
    (h : process_svg (some icon) fg size n d = some out) :
    (pyUpper fg = blackStr →
      out = pasteCentered size icon (paste_position size (icon_actual_size size n d))) ∧
    (pyUpper fg ≠ blackStr →
      ∃ rgb, getrgb fg = some rgb ∧
        out.data.length =
          (pasteCentered size icon (paste_position size (icon_actual_size size n d))).data.length ∧
        ∀ i p,
          (pasteCentered size icon (paste_position size (icon_actual_size size n d))).data.get? i =
            some p →
          out.data.get? i =
            some (if p.2.2.2 ≠ 0 then (rgb.1, rgb.2.1, rgb.2.2, p.2.2.2) else p)) := by
  simp only [process_svg] at h
  by_cases hb : pyUpper fg = blackStr
  · rw [if_neg (not_not_intro hb)] at h
    refine ⟨fun _ => ?_, fun hne => absurd hb hne⟩
    exact (Option.some_inj.mp h).symm
  · rw [if_pos hb] at h
    refine ⟨fun he => absurd he hb, fun _ => ?_⟩
    cases hg : getrgb fg with
    | none => rw [hg] at h; simp at h
    | some rgb =>
      rw [hg] at h
      simp only [Option.some_inj] at h
      refine ⟨rgb, rfl, ?_, ?_⟩
      · rw [← h]
        simp [recolor]
      · intro i p hp
        rw [← h]
        simp only [recolor, List.get?_map, hp]
        rfl

/-- Claim C5, witness: a one-pixel glyph pasted on a two-pixel canvas is
recolored to the foreground constant with its alpha preserved. -/
theorem process_svg_recolors_witness :
    (pyUpper FG_COLOR = blackStr →
      (⟨2, 2, [(209, 226, 252, 9), (0, 0, 0, 0), (0, 0, 0, 0), (0, 0, 0, 0)]⟩ : Img) =
        pasteCentered 2 ⟨1, 1, [(5, 6, 7, 9)]⟩ (paste_position 2 (icon_actual_size 2 1 2))) ∧
    (pyUpper FG_COLOR ≠ blackStr →
      ∃ rgb, getrgb FG_COLOR = some rgb ∧
        (⟨2, 2, [(209, 226, 252, 9), (0, 0, 0, 0), (0, 0, 0, 0), (0, 0, 0, 0)]⟩ : Img).data.length =
          (pasteCentered 2 ⟨1, 1, [(5, 6, 7, 9)]⟩
            (paste_position 2 (icon_actual_size 2 1 2))).data.length ∧
        ∀ i p,
          (pasteCentered 2 ⟨1, 1, [(5, 6, 7, 9)]⟩
              (paste_position 2 (icon_actual_size 2 1 2))).data.get? i = some p →
          (⟨2, 2, [(209, 226, 252, 9), (0, 0, 0, 0), (0, 0, 0, 0), (0, 0, 0, 0)]⟩ : Img).data.get? i =
            some (if p.2.2.2 ≠ 0 then (rgb.1, rgb.2.1, rgb.2.2, p.2.2.2) else p)) :=
  process_svg_recolors ⟨1, 1, [(5, 6, 7, 9)]⟩ FG_COLOR 2 1 2
    ⟨2, 2, [(209, 226, 252, 9), (0, 0, 0, 0), (0, 0, 0, 0), (0, 0, 0, 0)]⟩ (by decide)

/-- Claim C8: the glyph's requested side length is the integer
truncation of `icon_size * icon_scale` — in general `size * num / den`
equals the rational floor — and for icon size 432 and scale 0.4 the
glyph is 172 (432 * 0.4 = 172.8 truncated) with a paste offset of 130
and an equal margin of 130 on the far side. -/
theorem glyph_size_and_margin :
    icon_actual_size ICON_SIZE SCALE_NUM SCALE_DEN = 172 ∧
    paste_position ICON_SIZE (icon_actual_size ICON_SIZE SCALE_NUM SCALE_DEN) = 130 ∧
    ICON_SIZE - 130 - 172 = 130 ∧
    ((432 : ℚ) * (2 / 5) = 864 / 5 ∧ (⌊(432 : ℚ) * (2 / 5)⌋ : ℤ) = 172) ∧
    (∀ size num den : ℕ, 0 < den →
      (icon_actual_size size num den : ℤ) = ⌊((size : ℚ) * num) / den⌋) := by
  refine ⟨by decide, by decide, by decide, ⟨by norm_num, by norm_num⟩, ?_⟩
  intro size num den hden
  unfold icon_actual_size
  rw [eq_comm, Int.floor_eq_iff]
  constructor
  · rw [le_div_iff₀ (by positivity)]
    have h1 := Nat.div_mul_le_self (size * num) den
    push_cast
    exact_mod_cast h1
  · rw [div_lt_iff₀ (by positivity)]
    have h2 : size * num < (size * num / den + 1) * den :=
      (Nat.div_lt_iff_lt_mul hden).mp (Nat.lt_succ_self _)
    push_cast
    exact_mod_cast h2

/-- Claim C8, witness: the floor characterization at the script's own
constants. -/
theorem glyph_size_and_margin_witness :
    (icon_actual_size 432 2 5 : ℤ) = ⌊((432 : ℕ) : ℚ) * ((2 : ℕ) : ℚ) / ((5 : ℕ) : ℚ)⌋ :=
  glyph_size_and_margin.2.2.2.2 432 2 5 (by decide)

theorem mapper_keys_unique (mapper : List (PyStr × PyStr))
    (hnd : (mapper.map Prod.fst).Nodup) (p d1 d2 : PyStr)
    (h1 : (p, d1) ∈ mapper) (h2 : (p, d2) ∈ mapper) : d1 = d2 := by
  induction mapper with
  | nil => cases h1
  | cons f t ih =>
    simp only [List.map_cons, List.nodup_cons] at hnd
    rcases List.mem_cons.mp h1 with e1 | e1 <;> rcases List.mem_cons.mp h2 with e2 | e2
    · rw [← e1] at e2; exact (Prod.mk.injEq _ _ _ _).mp e2.symm |>.2
    · exact absurd (List.mem_map_of_mem Prod.fst e2) (by rw [← e1] at hnd; exact hnd.1)
    · exact absurd (List.mem_map_of_mem Prod.fst e1) (by rw [← e2] at hnd; exact hnd.1)
    · exact ih hnd.2 e1 e2

theorem generate_icons_mem (mapper : List (PyStr × PyStr)) (svgEx : PyStr → Bool)
    (raster : PyStr → ℕ → Option Img) (fg bg : PyStr) (size n d : ℕ)
    (out : List (PyStr × List (PyStr × Img))) (bgRgb : ℕ × ℕ × ℕ)
    (hbg : getrgb bg = some bgRgb)
    (hrun : generate_icons mapper svgEx raster fg bg size n d = some out) :
    ∀ pkg files, ((pkg, files) ∈ out ↔
      ∃ drw, (pkg, drw) ∈ mapper ∧ svgEx drw = true ∧
        files = (png0, create_background size bgRgb) ::
          (match process_svg (raster drw (icon_actual_size size n d)) fg size n d with
            | some icon => [(png1, icon)]
            | none => [])) := by
  unfold generate_icons at hrun
  rw [hbg] at hrun
  have hout := Option.some_inj.mp hrun
  subst hout
  intro pkg files
  rw [List.mem_filterMap]
  constructor
  · rintro ⟨⟨p2, d2⟩, hmem, hf⟩
    by_cases hex : svgEx d2 = true
    · rw [if_pos hex] at hf
      obtain ⟨hp, hfl⟩ := Prod.mk.injEq _ _ _ _ |>.mp (Option.some_inj.mp hf)
      subst hp
      exact ⟨d2, hmem, hex, hfl.symm⟩
    · rw [if_neg hex] at hf
      cases hf
  · rintro ⟨drw, hmem, hex, hfiles⟩
    refine ⟨(pkg, drw), hmem, ?_⟩
    rw [if_pos hex, hfiles]

theorem process_svg_dims (r : Option Img) (fg : PyStr) (size n d : ℕ) (i : Img)
    (h : process_svg r fg size n d = some i) : i.w = size ∧ i.h = size := by
  cases r with
  | none => simp [process_svg] at h
  | some icon =>
    simp only [process_svg] at h
    split_ifs at h with hb
    · cases hg : getrgb fg with
      | none => rw [hg] at h; cases h
      | some rgb =>
        rw [hg] at h
        rw [← Option.some_inj.mp h]
        exact ⟨rfl, rfl⟩
    · rw [← Option.some_inj.mp h]
      exact ⟨rfl, rfl⟩

/-- Claim C3 (amended): in every package directory generate_icons
creates, the background `0.png` exists and has the configured canvas
size, any foreground `1.png` present has the canvas size as well, and
`1.png` is present precisely when `process_svg` succeeded on the
package's drawable. -/
theorem generate_icons_dir_layers (mapper : List (PyStr × PyStr)) (svgEx : PyStr → Bool)
    (raster : PyStr → ℕ → Option Img) (fg bg : PyStr) (size n d : ℕ)
    (out : List (PyStr × List (PyStr × Img)))
    (hnd : (mapper.map Prod.fst).Nodup)
    (hrun : generate_icons mapper svgEx raster fg bg size n d = some out) :
    ∀ pkg files, (pkg, files) ∈ out →
      (∃ img, (png0, img) ∈ files ∧ img.w = size ∧ img.h = size) ∧
      (∀ img, (png1, img) ∈ files → img.w = size ∧ img.h = size) ∧
      ((∃ img, (png1, img) ∈ files) ↔
        ∃ drw, (pkg, drw) ∈ mapper ∧ svgEx drw = true ∧
          (process_svg (raster drw (icon_actual_size size n d)) fg size n d).isSome = true) := by
  have hbg : ∃ bgRgb, getrgb bg = some bgRgb := by
    unfold generate_icons at hrun
    cases hg : getrgb bg with
    | none => rw [hg] at hrun; cases hrun
    | some b => exact ⟨b, rfl⟩
  obtain ⟨bgRgb, hbg⟩ := hbg
  intro pkg files hm
  obtain ⟨drw, hmem, hex, hfiles⟩ :=
    (generate_icons_mem mapper svgEx raster fg bg size n d out bgRgb hbg hrun pkg files).mp hm
  subst hfiles
  refine ⟨⟨create_background size bgRgb, List.mem_cons_self _ _, rfl, rfl⟩, ?_, ?_⟩
  · intro img hmem1
    cases hp : process_svg (raster drw (icon_actual_size size n d)) fg size n d with
    | none =>
      rw [hp] at hmem1
      rcases List.mem_cons.mp hmem1 with h1 | h1
      · have hps : png1 = png0 := congrArg Prod.fst h1
        exact absurd hps (by decide)
      · cases h1
    | some icon =>
      rw [hp] at hmem1
      rcases List.mem_cons.mp hmem1 with h1 | h1
      · have hps : png1 = png0 := congrArg Prod.fst h1
        exact absurd hps (by decide)
      · rcases List.mem_singleton.mp h1 with h2
        have himg := congrArg Prod.snd h2
        simp only at himg
        rw [himg]
        exact process_svg_dims _ _ _ _ _ _ hp
  · constructor
    · rintro ⟨img, hmem1⟩
      refine ⟨drw, hmem, hex, ?_⟩
      cases hp : process_svg (raster drw (icon_actual_size size n d)) fg size n d with
      | none =>
        rw [hp] at hmem1
        rcases List.mem_cons.mp hmem1 with h1 | h1
        · have hps : png1 = png0 := congrArg Prod.fst h1
          exact absurd hps (by decide)
        · cases h1
      | some icon => simp
    · rintro ⟨drw2, hmem2, hex2, hsome⟩
      have hdeq : drw2 = drw := mapper_keys_unique mapper hnd pkg drw2 drw hmem2 hmem
      subst hdeq
      cases hp : process_svg (raster drw2 (icon_actual_size size n d)) fg size n d with
      | none => rw [hp] at hsome; cases hsome
      | some icon =>
        exact ⟨icon, List.mem_cons_of_mem _ (List.mem_singleton.mpr rfl)⟩

/-- Claim C3, counterexample: when rasterization fails, the created
package directory holds only the background layer, so it is false that
both image files always exist. -/
theorem generate_icons_dir_layers_counterexample :
    ¬ (∀ out, generate_icons [("a".data, "d".data)] (fun s => s == "d".data)
          (fun _ _ => none) "#ffffff".data "#102030".data 2 1 2 = some out →
        ∀ pkg files, (pkg, files) ∈ out →
          (∃ img, (png0, img) ∈ files ∧ img.w = 2 ∧ img.h = 2) ∧
          (∃ img, (png1, img) ∈ files ∧ img.w = 2 ∧ img.h = 2)) := by
  intro hcl
  have h := hcl [("a".data, [(png0, create_background 2 (16, 32, 48))])] (by decide)
    "a".data [(png0, create_background 2 (16, 32, 48))] (by decide)
  obtain ⟨-, img, hmem, -⟩ := h
  have hps : png1 = png0 := congrArg Prod.fst (List.mem_singleton.mp hmem)
  exact absurd hps (by decide)

/-- Claim C3, witness for the amended claim: a run whose rasterizer
succeeds produces a directory holding both canvas-sized layers. -/
theorem generate_icons_dir_layers_witness :
    (∃ img, (png0, img) ∈
        [(png0, create_background 2 (16, 32, 48)),
         (png1, (⟨2, 2, [(255, 255, 255, 4), (0, 0, 0, 0), (0, 0, 0, 0), (0, 0, 0, 0)]⟩ : Img))] ∧
      img.w = 2 ∧ img.h = 2) ∧
    (∀ img, (png1, img) ∈
        [(png0, create_background 2 (16, 32, 48)),
         (png1, (⟨2, 2, [(255, 255, 255, 4), (0, 0, 0, 0), (0, 0, 0, 0), (0, 0, 0, 0)]⟩ : Img))] →
      img.w = 2 ∧ img.h = 2) ∧
    ((∃ img, (png1, img) ∈
        [(png0, create_background 2 (16, 32, 48)),
         (png1, (⟨2, 2, [(255, 255, 255, 4), (0, 0, 0, 0), (0, 0, 0, 0), (0, 0, 0, 0)]⟩ : Img))]) ↔
      ∃ drw, ("a".data, drw) ∈ [("a".data, "d".data)] ∧ (drw == "d".data) = true ∧
        (process_svg ((fun (_ : PyStr) (s : ℕ) =>
            some (⟨s, s, List.replicate (s * s) (1, 2, 3, 4)⟩ : Img)) drw (icon_actual_size 2 1 2))
          "#ffffff".data 2 1 2).isSome = true) :=
  generate_icons_dir_layers [("a".data, "d".data)] (fun s => s == "d".data)
    (fun _ s => some ⟨s, s, List.replicate (s * s) (1, 2, 3, 4)⟩)
    "#ffffff".data "#102030".data 2 1 2
    [("a".data,
      [(png0, create_background 2 (16, 32, 48)),
       (png1, ⟨2, 2, [(255, 255, 255, 4), (0, 0, 0, 0), (0, 0, 0, 0), (0, 0, 0, 0)]⟩)])]
    (by decide) (by decide) "a".data _ (by decide)

/-- Claim C4: a mapping entry whose drawable has no SVG asset is
skipped: no directory for its package appears in the output tree, not
even one holding only the background layer. -/
theorem generate_icons_missing_asset_no_dir (mapper : List (PyStr × PyStr))
    (svgEx : PyStr → Bool) (raster : PyStr → ℕ → Option Img) (fg bg : PyStr)
    (size n d : ℕ) (out : List (PyStr × List (PyStr × Img))) (pkg drw : PyStr)
    (hnd : (mapper.map Prod.fst).Nodup)
    (hrun : generate_icons mapper svgEx raster fg bg size n d = some out)
    (hm : (pkg, drw) ∈ mapper) (hmiss : svgEx drw = false) :
    pkg ∉ out.map Prod.fst := by
  have hbg : ∃ bgRgb, getrgb bg = some bgRgb := by
    unfold generate_icons at hrun
    cases hg : getrgb bg with
    | none => rw [hg] at hrun; cases hrun
    | some b => exact ⟨b, rfl⟩
  obtain ⟨bgRgb, hbg⟩ := hbg
  intro hin
  obtain ⟨⟨p2, files⟩, hmemo, hp⟩ := List.mem_map.mp hin
  simp only at hp
  subst hp
  obtain ⟨drw2, hmem2, hex2, -⟩ :=
    (generate_icons_mem mapper svgEx raster fg bg size n d out bgRgb hbg hrun _ files).mp hmemo
  have heq : drw2 = drw := mapper_keys_unique mapper hnd _ drw2 drw hmem2 hm
  subst heq
  rw [hmiss] at hex2
  cases hex2

/-- Claim C4, witness: with the only asset missing, the output tree is
empty and the package's directory is absent. -/
theorem generate_icons_missing_asset_no_dir_witness :
    "a".data ∉ (([] : List (PyStr × List (PyStr × Img))).map Prod.fst) :=
  generate_icons_missing_asset_no_dir [("a".data, "d".data)] (fun _ => false)
    (fun _ _ => none) "#ffffff".data "#102030".data 2 1 2 [] "a".data "d".data
    (by decide) (by decide) (by decide) (by decide)

/-- Claim C10: when a package's SVG exists but rasterization fails, the
package directory is still created and holds exactly the background
`0.png` and no `1.png`. -/
theorem generate_icons_raster_failure_bg_only (mapper : List (PyStr × PyStr))
    (svgEx : PyStr → Bool) (raster : PyStr → ℕ → Option Img) (fg bg : PyStr)
    (size n d : ℕ) (out : List (PyStr × List (PyStr × Img))) (bgRgb : ℕ × ℕ × ℕ)
    (pkg drw : PyStr)
    (hnd : (mapper.map Prod.fst).Nodup)
    (hbg : getrgb bg = some bgRgb)
    (hrun : generate_icons mapper svgEx raster fg bg size n d = some out)
    (hm : (pkg, drw) ∈ mapper) (hex : svgEx drw = true)
    (hfail : raster drw (icon_actual_size size n d) = none) :
    (pkg, [(png0, create_background size bgRgb)]) ∈ out ∧
    ∀ files, (pkg, files) ∈ out → files = [(png0, create_background size bgRgb)] := by
  have hiff := generate_icons_mem mapper svgEx raster fg bg size n d out bgRgb hbg hrun
  have hproc : process_svg (raster drw (icon_actual_size size n d)) fg size n d = none := by
    rw [hfail]
    rfl
  constructor
  · exact (hiff pkg _).mpr ⟨drw, hm, hex, by rw [hproc]⟩
  · intro files hmf
    obtain ⟨drw2, hm2, hex2, hfiles⟩ := (hiff pkg files).mp hmf
    have heq : drw2 = drw := mapper_keys_unique mapper hnd _ drw2 drw hm2 hm
    subst heq
    rw [hproc] at hfiles
    exact hfiles

/-- Claim C10, witness: a failing rasterizer leaves the package
directory with only the background layer. -/
theorem generate_icons_raster_failure_bg_only_witness :
    ("a".data, [(png0, create_background 2 (16, 32, 48))]) ∈
      [("a".data, [(png0, create_background 2 (16, 32, 48))])] ∧
    ∀ files, ("a".data, files) ∈ [("a".data, [(png0, create_background 2 (16, 32, 48))])] →
      files = [(png0, create_background 2 (16, 32, 48))] :=
  generate_icons_raster_failure_bg_only [("a".data, "d".data)] (fun _ => true)
    (fun _ _ => none) "#ffffff".data "#102030".data 2 1 2
    [("a".data, [(png0, create_background 2 (16, 32, 48))])] (16, 32, 48) "a".data "d".data
    (by decide) (by decide) (by decide) (by decide) (by decide) (by decide)

theorem mem_upsertFile_self (fs : List (RelPath × Bytes)) (k : RelPath) (v : Bytes) :
    (k, v) ∈ upsertFile fs k v := by
  induction fs with
  | nil => simp [upsertFile]
  | cons f t ih =>
    simp only [upsertFile]
    by_cases hk : f.1 = k
    · rw [if_pos hk]; exact List.mem_cons_self _ _
    · rw [if_neg hk]; exact List.mem_cons_of_mem _ ih

theorem mem_upsertFile (fs : List (RelPath × Bytes)) (k : RelPath) (v : Bytes)
    (p : RelPath) (c : Bytes) (h : (p, c) ∈ upsertFile fs k v) :
    (p, c) = (k, v) ∨ (p, c) ∈ fs := by
  induction fs with
  | nil => simp [upsertFile] at h; simp [h]
  | cons f t ih =>
    simp only [upsertFile] at h
    by_cases hk : f.1 = k
    · rw [if_pos hk] at h
      rcases List.mem_cons.mp h with h1 | h1
      · exact Or.inl h1
      · exact Or.inr (List.mem_cons_of_mem _ h1)
    · rw [if_neg hk] at h
      rcases List.mem_cons.mp h with h1 | h1
      · exact Or.inr (h1 ▸ List.mem_cons_self _ _)
      · rcases ih h1 with h2 | h2
        · exact Or.inl h2
        · exact Or.inr (List.mem_cons_of_mem _ h2)

/-- Claim C2: after pack_icons_zip has renamed the intermediate archive
to `icons` and copied it into template B, the final module archive has
an entry named `icons` whose bytes are exactly the intermediate
archive's bytes, and every other entry is an original template B file —
in particular (template B holding no file under `res/drawable-xxhdpi`)
none of the unpacked resource subdirectory's files appears directly.
Hypotheses: the template's own path does not contain `icons`, and
template B holds no files under the resource subdirectory. -/
theorem pack_module_contains_icons (base : PyStr) (templateB : List (RelPath × Bytes))
    (iconsBytes : Bytes)
    (hbase : containsSub iconsName base = false)
    (hres : ∀ p c, (p, c) ∈ templateB → p.take 2 ≠ ["res".data, "drawable-xxhdpi".data]) :
    (iconsName, iconsBytes) ∈
        pack_magisk_module base (copy_icons_into_template templateB iconsBytes) ∧
    ∀ nm c, (nm, c) ∈ pack_magisk_module base (copy_icons_into_template templateB iconsBytes) →
      nm = iconsName ∨
      ∃ p, (p, c) ∈ templateB ∧ nm = arcjoin p ∧
        p.take 2 ≠ ["res".data, "drawable-xxhdpi".data] := by
  constructor
  · unfold pack_magisk_module
    rw [List.mem_filterMap]
    refine ⟨([iconsName], iconsBytes), mem_upsertFile_self _ _ _, ?_⟩
    rw [if_neg]
    · rfl
    · show ¬ containsSub iconsName (joinPath base ([iconsName] : RelPath).dropLast) = true
      simpa [joinPath] using hbase
  · intro nm c hm
    unfold pack_magisk_module at hm
    rw [List.mem_filterMap] at hm
    obtain ⟨⟨p, c2⟩, hmem, hf⟩ := hm
    by_cases hcond : containsSub iconsName (joinPath base p.dropLast) = true
    · rw [if_pos hcond] at hf
      cases hf
    · rw [if_neg hcond] at hf
      obtain ⟨hnm, hc⟩ := Prod.mk.injEq _ _ _ _ |>.mp (Option.some_inj.mp hf)
      subst hc
      rcases mem_upsertFile templateB [iconsName] iconsBytes p c2 hmem with h1 | h1
      · obtain ⟨hp, -⟩ := Prod.mk.injEq _ _ _ _ |>.mp h1
        subst hp
        exact Or.inl hnm.symm
      · exact Or.inr ⟨p, h1, hnm.symm, hres p c2 h1⟩

/-- Claim C2, witness: a template containing one module file receives
the copied icons archive, and the packed module holds that archive and
only original files besides it. -/
theorem pack_module_contains_icons_witness :
    (iconsName, ([7, 8] : Bytes)) ∈
        pack_magisk_module "/t/magisk_template_HyperOS2".data
          (copy_icons_into_template [(["module.prop".data], [1])] [7, 8]) ∧
    ∀ nm c, (nm, c) ∈ pack_magisk_module "/t/magisk_template_HyperOS2".data
          (copy_icons_into_template [(["module.prop".data], [1])] [7, 8]) →
      nm = iconsName ∨
      ∃ p, (p, c) ∈ [(["module.prop".data], ([1] : Bytes))] ∧ nm = arcjoin p ∧
        p.take 2 ≠ ["res".data, "drawable-xxhdpi".data] :=
  pack_module_contains_icons "/t/magisk_template_HyperOS2".data
    [(["module.prop".data], [1])] [7, 8] (by decide)
    (by
      intro p c hm
      rw [List.mem_singleton] at hm
      rw [(Prod.mk.injEq _ _ _ _).mp hm |>.1]
      decide)

/-- Claim C7 (amended): a file of template B appears as an entry of the
final archive exactly when its DIRECTORY path (the walk root) does not
contain `icons`; the exclusion check of line 295 tests the directory
path only, so a file whose own name contains `icons` in a clean
directory — in particular the copied `icons` archive at the template
root — is included. Arcnames are assumed distinct, as for files of a
real directory tree. -/
theorem pack_module_filter (base : PyStr) (fs : List (RelPath × Bytes))
    (hnd : (fs.map (fun f => arcjoin f.1)).Nodup) (p : RelPath) (c : Bytes)
    (hm : (p, c) ∈ fs) :
    ((arcjoin p, c) ∈ pack_magisk_module base fs ↔
      containsSub iconsName (joinPath base p.dropLast) = false) := by
  constructor
  · intro hmem
    unfold pack_magisk_module at hmem
    rw [List.mem_filterMap] at hmem
    obtain ⟨⟨p2, c2⟩, hmem2, hf⟩ := hmem
    by_cases hcond : containsSub iconsName (joinPath base p2.dropLast) = true
    · rw [if_pos hcond] at hf
      cases hf
    · rw [if_neg hcond] at hf
      obtain ⟨harc, hc⟩ := Prod.mk.injEq _ _ _ _ |>.mp (Option.some_inj.mp hf)
      have hpe : (p2, c2) = (p, c) := List.inj_on_of_nodup_map hnd hmem2 hm harc
      obtain ⟨hp2, -⟩ := Prod.mk.injEq _ _ _ _ |>.mp hpe
      subst hp2
      simpa using hcond
  · intro hcond
    unfold pack_magisk_module
    rw [List.mem_filterMap]
    refine ⟨(p, c), hm, ?_⟩
    rw [if_neg (by simp [hcond])]

/-- Claim C7, witness for the amended claim: a module file in the clean
template root is packed, its directory path holding no `icons`. -/
theorem pack_module_filter_witness :
    (arcjoin ["module.prop".data], ([1] : Bytes)) ∈
        pack_magisk_module "/t/magisk_template_HyperOS2".data
          [(["module.prop".data], [1])] ↔
      containsSub iconsName
        (joinPath "/t/magisk_template_HyperOS2".data
          (["module.prop".data] : RelPath).dropLast) = false :=
  pack_module_filter "/t/magisk_template_HyperOS2".data [(["module.prop".data], [1])]
    (by decide) ["module.prop".data] [1] (by decide)

/-- Claim C7, counterexample: the copied `icons` archive at the template
root has a FILE path containing `icons`, yet it is written into the
final archive, because the exclusion tests only the directory path; so
"appears iff its path does not contain icons" is false as stated. -/
theorem pack_module_filter_counterexample :
    ¬ (∀ p c, (p, c) ∈ ([([iconsName], [7, 8])] : List (RelPath × Bytes)) →
        ((arcjoin p, c) ∈
            pack_magisk_module "/t/magisk_template_HyperOS2".data [([iconsName], [7, 8])] ↔
          containsSub iconsName (joinPath "/t/magisk_template_HyperOS2".data p) = false)) := by
  intro hcl
  have h := hcl [iconsName] [7, 8] (by decide)
  have hmem : (arcjoin [iconsName], ([7, 8] : Bytes)) ∈
      pack_magisk_module "/t/magisk_template_HyperOS2".data [([iconsName], [7, 8])] := by
    decide
  exact absurd (h.mp hmem) (by decide)
